import Mathlib

/-!
Verification development for the ziggy repository (vector index, ring buffer,
history store).  Every definition below is a shallow embedding translated from
the Python source:

* `FiniteList`, `slice_to_indices` and friends embed the ring buffer of
  `src/agent.py` (class `FiniteList`, function `slice_to_indices`);
* `TorchVectorIndex` embeds the capacity bookkeeping of the index in
  `src/index.py` (`next_power_of_2`, `expand`, `compress`, the capacity
  effect of `add`);
* namespace `Ziggy` embeds the index of `src/ziggy/index.py` together with
  the `OrderedSet` / `IndexDict` collections of `src/ziggy/utils.py`;
* `HistoryDatabase` embeds the history store of `src/agent.py`.

Similarity scores are carried in an arbitrary `LinearOrderedCommRing` so that
concrete evaluations can run over `ℤ` while the decay analysis runs over `ℝ`;
the source computes over floating-point numbers, and every property proved
here depends only on the ordered-ring structure of the score type.

Python exceptions are modelled with `PyErr` / `Except` / `Option`; mutation is
modelled by explicit state passing, with a raise in the middle of a mutating
method returning the state as mutated up to the raise point.
-/

/-- Exception kinds raised by the modelled Python code. -/
inductive PyErr where
  | indexError
  | valueError
  | assertError
  | duplicateLabel
  | keyError
deriving DecidableEq

instance {ε α : Type} [DecidableEq ε] [DecidableEq α] : DecidableEq (Except ε α) := fun x y =>
  match x, y with
  | .ok a, .ok b => if h : a = b then isTrue (by rw [h]) else isFalse (by simp [h])
  | .ok _, .error _ => isFalse (by simp)
  | .error _, .ok _ => isFalse (by simp)
  | .error e, .error f => if h : e = f then isTrue (by rw [h]) else isFalse (by simp [h])

/-- Semantics of Python `range(start, stop, step)` for `step ≠ 0` (for
`step = 0` Python raises `ValueError`; callers model that check themselves).
The element count is `max 0 (ceil((stop - start) / step))`, expressed with
Euclidean division, matching CPython's `range` length computation. -/
def pyRange (start stop step : ℤ) : List ℤ :=
  if 0 < step then
    (List.range ((stop - start + step - 1).ediv step).toNat).map (fun i => start + i * step)
  else if step < 0 then
    (List.range ((start - stop + (-step) - 1).ediv (-step)).toNat).map (fun i => start + i * step)
  else []

/-- Semantics of the Python slice expression `data[start::-1]` (descending
step `-1` from index `start` down to the first element): a negative `start`
counts from the end; a start still below `0` yields the empty list; a start
at or past the end is clamped to the last element. -/
def pyRevSliceFrom {α : Type} (data : List α) (start : ℤ) : List α :=
  let n : ℤ := data.length
  let s := if start < 0 then start + n else start
  if s < 0 then []
  else (data.take (min s (n - 1) + 1).toNat).reverse

/-- Semantics of the Python slice expression `data[:stop:-1]` (descending
step `-1` from the last element down to, but excluding, index `stop`): a
negative `stop` counts from the end; a stop still below `-1` is clamped
to `-1`, i.e. the slice runs all the way down to the first element. -/
def pyRevSliceTo {α : Type} (data : List α) (stop : ℤ) : List α :=
  let n : ℤ := data.length
  let t0 := if stop < 0 then stop + n else stop
  let t := max t0 (-1)
  (data.drop (t + 1).toNat).reverse

/-- Arguments of a Python slice object: optional start, stop and step. -/
structure PySlice where
  start : Option ℤ
  stop : Option ℤ
  step : Option ℤ
deriving DecidableEq

/-- Embedding of `slice_to_indices` from `src/agent.py`.  The source fills in
defaults, adjusts a negative `start`, computes an adjusted and clamped `end`
from `stop` — and then builds `range(start, stop, step)` from the *unclamped,
unadjusted* `stop`, leaving the computed `end` unused.  The unused bindings
`_end0` and `_end1` mirror those dead assignments of the source. -/
def slice_to_indices (sl : PySlice) (size : ℕ) : List ℤ :=
  let start0 := sl.start.getD 0
  let stop := sl.stop.getD (size : ℤ)
  let step := sl.step.getD 1
  let start1 := if start0 < 0 then start0 + (size : ℤ) else start0
  let _end0 := if stop < 0 then stop + (size : ℤ) else stop
  let start2 := max 0 start1
  let _end1 := min (size : ℤ) _end0
  pyRange start2 stop step

/-- Embedding of class `FiniteList` from `src/agent.py`: a fixed-capacity
ring buffer with write cursor `pos`, addressed backward like a stack. -/
structure FiniteList (α : Type) where
  max : ℕ
  pos : ℕ
  data : List α
deriving DecidableEq

namespace FiniteList

/-- Embedding of `FiniteList.append`: append to the backing list while not
full, otherwise overwrite at the cursor; always advance the cursor mod
capacity. -/
def append {α : Type} (fl : FiniteList α) (item : α) : FiniteList α :=
  if fl.data.length < fl.max then
    { fl with data := fl.data ++ [item], pos := (fl.pos + 1) % fl.max }
  else
    { fl with data := fl.data.set fl.pos item, pos := (fl.pos + 1) % fl.max }

/-- Sequence of appends, oldest first. -/
def appendAll {α : Type} (fl : FiniteList α) (items : List α) : FiniteList α :=
  items.foldl append fl

/-- Embedding of `FiniteList.values`: the empty case, the full case
`self.data[self.pos-1::-1] + self.data[:self.pos:-1]`, and the non-full case
`self.data[self.pos-1::-1]`, each via the Python slice semantics above. -/
def values {α : Type} (fl : FiniteList α) : List α :=
  if fl.data.length = 0 then []
  else if fl.data.length = fl.max then
    pyRevSliceFrom fl.data ((fl.pos : ℤ) - 1) ++ pyRevSliceTo fl.data (fl.pos : ℤ)
  else
    pyRevSliceFrom fl.data ((fl.pos : ℤ) - 1)

/-- Embedding of `FiniteList.__getitem__` on an integer index: raise
`IndexError` outside `[-size, size)`, otherwise read the backing list at
`(pos - 1 - idx) % size` (Python `%`, i.e. Euclidean remainder). -/
def getInt {α : Type} (fl : FiniteList α) (idx : ℤ) : Except PyErr α :=
  let size : ℤ := fl.data.length
  if size ≤ idx ∨ idx < -size then .error .indexError
  else
    match fl.data.get? ((fl.pos - 1 - idx).emod size).toNat with
    | some v => .ok v
    | none => .error .indexError

/-- Embedding of `FiniteList.__getitem__` on a list of indices: the Python
comprehension `[self[i] for i in idx]`, failing at the first bad index. -/
def getItems {α : Type} (fl : FiniteList α) (idxs : List ℤ) : Except PyErr (List α) :=
  idxs.mapM fl.getInt

/-- Embedding of `FiniteList.__getitem__` on a slice: translate the slice via
`slice_to_indices`, then read each produced index.  A zero step makes
Python's `range` raise `ValueError` inside `slice_to_indices`. -/
def getSlice {α : Type} (fl : FiniteList α) (sl : PySlice) : Except PyErr (List α) :=
  if sl.step = some 0 then .error .valueError
  else fl.getItems (slice_to_indices sl fl.data.length)

end FiniteList

/-- Least exponent `k` with `x ≤ 2 ^ k`, computed by structural search so the
kernel can evaluate it (`2 ^ x ≥ x` bounds the search).  The lemma
`clog2Comp_eq_clog` below proves it equal to `Nat.clog 2 x`, i.e. to
`ceil(log2 x)` for `x ≥ 1`. -/
def clog2Comp (x : ℕ) : ℕ :=
  (((List.range (x + 1)).find? (fun k => x ≤ 2 ^ k)).getD 0)

/-- Embedding of `next_power_of_2` from `src/index.py` and
`src/ziggy/utils.py`: `pow(2, round(ceil(log2(x))))`.  For `x ≥ 1` the value
`ceil(log2 x)` is `Nat.clog 2 x` (see `clog2Comp_eq_clog`) and `round` is the
identity on integers; for `x = 0` Python's `log2` raises `ValueError` (math
domain error), modelled as `none`. -/
def next_power_of_2 (x : ℕ) : Option ℕ :=
  if x = 0 then none else some (2 ^ clog2Comp x)

/-- Capacity bookkeeping of class `TorchVectorIndex` from `src/index.py`:
`max_size` is the allocated capacity of the `values` / `groups` tensors and
`size` is `len(self.labels)`.  The constructor asserts that `max_size` is a
power of two.  `expand` and `compress` only ever change these two
quantities (plus the reallocation itself), so the claims about capacity are
stated on this projection of the index state. -/
structure TorchVectorIndex where
  max_size : ℕ
  size : ℕ
deriving DecidableEq

namespace TorchVectorIndex

/-- Embedding of `TorchVectorIndex.expand`: grow the allocation to
`next_power_of_2 min_size` when that exceeds the current capacity.  `none`
models the `ValueError` from `log2 0`. -/
def expand (st : TorchVectorIndex) (min_size : ℕ) : Option TorchVectorIndex :=
  (next_power_of_2 min_size).map (fun s =>
    if st.max_size < s then { st with max_size := s } else st)

/-- Embedding of `TorchVectorIndex.compress`: compute
`next_power_of_2(self.size())` (raising on an empty index), then shrink the
allocation to `max min_size` of it when that is below the current capacity. -/
def compress (st : TorchVectorIndex) (min_size : ℕ) : Option TorchVectorIndex :=
  (next_power_of_2 st.size).map (fun size0 =>
    let s := max min_size size0
    if s < st.max_size then { st with max_size := s } else st)

/-- Capacity effect of `TorchVectorIndex.add` when the call introduces
`novel` previously-absent labels: with no novel labels the size and capacity
are untouched (the update path writes in place); otherwise the index calls
`self.expand(self.size() + novel)` and then extends the label list. -/
def addNovel (st : TorchVectorIndex) (novel : ℕ) : Option TorchVectorIndex :=
  if novel = 0 then some st
  else (st.expand (st.size + novel)).map (fun st1 => { st1 with size := st.size + novel })

/-- Run a sequence of `add` calls, given by their novel-label counts. -/
def runAdds (st : TorchVectorIndex) (ops : List ℕ) : Option TorchVectorIndex :=
  ops.foldlM addNovel st

end TorchVectorIndex

/-- Relation used to model `torch.topk(..., sorted=True)`: higher score
first, and on equal scores the lower index first.  The index tie-break
matches the spec's determinism statement for the similarity search ("ties
broken by slot order, lower slot wins"); `torch` itself is an external
collaborator, so its top-k kernel is modelled by this contract. -/
def topkRel {R : Type} [LinearOrderedCommRing R] (a b : ℕ × R) : Prop :=
  b.2 < a.2 ∨ (a.2 = b.2 ∧ a.1 ≤ b.1)

instance {R : Type} [LinearOrderedCommRing R] : DecidableRel (topkRel (R := R)) := fun a b => by
  unfold topkRel; infer_instance

instance {R : Type} [LinearOrderedCommRing R] : IsTotal (ℕ × R) topkRel where
  total a b := by
    rcases lt_trichotomy a.2 b.2 with h | h | h
    · exact Or.inr (Or.inl h)
    · rcases Nat.le_total a.1 b.1 with h1 | h1
      · exact Or.inl (Or.inr ⟨h, h1⟩)
      · exact Or.inr (Or.inr ⟨h.symm, h1⟩)
    · exact Or.inl (Or.inl h)

instance {R : Type} [LinearOrderedCommRing R] : IsTrans (ℕ × R) topkRel where
  trans a b c hab hbc := by
    rcases hab with h1 | ⟨h1, h1i⟩ <;> rcases hbc with h2 | ⟨h2, h2i⟩
    · exact Or.inl (h2.trans h1)
    · exact Or.inl (h2 ▸ h1)
    · exact Or.inl (h1 ▸ h2)
    · exact Or.inr ⟨h1.trans h2, h1i.trans h2i⟩

/-- Model of `tensor.topk(k)` on a one-dimensional score list: the first `k`
entries of the `(slot, score)` pairs sorted by `topkRel`, i.e. by score
descending with the lower slot first on ties. -/
def topk {R : Type} [LinearOrderedCommRing R] (sims : List R) (k : ℕ) : List (ℕ × R) :=
  (((List.range sims.length).map (fun i => (i, sims.getD i 0))).insertionSort topkRel).take k

/-- Dot product of two stored rows; this is the similarity kernel of the
external quantized embedding store (`vecs @ vals.T` per query row), which the
spec lists as an external collaborator with contract
`similarity(query, mask) -> scores aligned to mask`. -/
def dotR {R : Type} [LinearOrderedCommRing R] (a b : List R) : R :=
  (List.zipWith (fun x y => x * y) a b).sum

/-- Embedding of class `OrderedSet` from `src/ziggy/utils.py`: a `list`
subclass carrying a mirror `_set`.  `intersection` and `extend` consult the
mirror `sst`, while inherited list operations (`index`, `pop`, `in`,
iteration) use `lst`; crucially `pop` does not update the mirror. -/
structure OrderedSet where
  lst : List String
  sst : List String
deriving DecidableEq

namespace Ziggy

/-- Group keys passed to `add`/`search`; `none` models Python `None` (the
default group argument), `some n` an integer key. -/
abbrev GroupKey := Option ℤ

/-- Backing store of class `QuantizedEmbedding` (external collaborator per
the spec): `dims` columns and `raw` allocated rows, of which only the first
`size()` are logically occupied — the rest hold arbitrary (uninitialized or
stale) data. -/
structure QuantizedEmbedding (R : Type) where
  dims : ℕ
  raw : List (List R)
deriving DecidableEq

/-- Write `rows` into `l` at consecutive positions starting at `i`: models
the slice assignment `dst[i:i+len(rows)] = rows`. -/
def setFrom {β : Type} (l : List β) (i : ℕ) : List β → List β
  | [] => l
  | r :: rs => setFrom (l.set i r) (i + 1) rs

/-- Embedding of class `TorchVectorIndex` from `src/ziggy/index.py`:
an `OrderedSet` of labels (slot = list position), an `IndexDict` of group
keys (modelled as an association list key ↦ id, id = dict size at first
insertion), the quantized embedding store, and the per-slot group-id array
(allocated to the same capacity as `values`). -/
structure TorchVectorIndex (R : Type) where
  labels : OrderedSet
  grpids : List (GroupKey × ℕ)
  values : QuantizedEmbedding R
  groups : List ℤ
deriving DecidableEq

variable {R : Type} [LinearOrderedCommRing R]

/-- Embedding of `TorchVectorIndex.size`: `len(self.labels)`. -/
def TorchVectorIndex.size (st : TorchVectorIndex R) : ℕ :=
  st.labels.lst.length

/-- Embedding of `lab in self.labels` (list membership, used for the spec's
`contains`). -/
def TorchVectorIndex.containsLabel (st : TorchVectorIndex R) (lab : String) : Bool :=
  st.labels.lst.contains lab

/-- Embedding of `TorchVectorIndex.get` on a single label: `labels.index`
raises `ValueError` when the label is absent from the list (the subsequent
`== -1` validation in the source is dead code, since `list.index` raises
instead of returning `-1`); otherwise the stored row at the label's slot is
returned. -/
def TorchVectorIndex.get (st : TorchVectorIndex R) (lab : String) : Except PyErr (List R) :=
  if st.labels.lst.contains lab then
    .ok (st.values.raw.getD (st.labels.lst.indexOf lab) [])
  else .error .valueError

/-- Embedding of `TorchVectorIndex.add` for a scalar `groups` argument (the
default `None` or a single key; the list form differs only in how `gids` is
built).  Mutation points are threaded in source order so that a raise
returns the state exactly as mutated up to that point:
1. shape asserts (`nv == nlabs`, `dv == d0`);
2. `exist`/`novel` split via the mirror set;
3. the `strict` duplicate check, raised **before any mutation**;
4. `self.grpids.add(groups)` — first mutation;
5. update path: `labels.index` on each existing label (a stale mirror entry
   raises `ValueError` here), then in-place row/group writes;
6. novel path: `expand(nlabels1, power=True)` (resize to
   `next_power_of_2` when larger), `labels.extend`, then the two slice
   assignments (which raise on a length mismatch caused by duplicate novel
   labels in the input). -/
def TorchVectorIndex.add (st : TorchVectorIndex R) (labs : List String)
    (vecs : List (List R)) (groups : GroupKey) (strict : Bool) :
    Option PyErr × TorchVectorIndex R :=
  if labs.length ≠ vecs.length then (some .assertError, st)
  else if vecs.any (fun v => v.length ≠ st.values.dims) then (some .assertError, st)
  else
    let exist := st.labels.sst.filter (fun l => labs.contains l)
    if strict ∧ exist ≠ [] then (some .duplicateLabel, st)
    else
      let grpids1 :=
        if (st.grpids.lookup groups).isSome then st.grpids
        else st.grpids ++ [(groups, st.grpids.length)]
      let gidx : ℤ := ((grpids1.lookup groups).getD 0 : ℕ)
      let st1 := { st with grpids := grpids1 }
      let epairs := (List.zip labs vecs).filter (fun p => st1.labels.sst.contains p.1)
      if epairs.any (fun p => ¬ st1.labels.lst.contains p.1) then (some .valueError, st1)
      else
        let st2 := epairs.foldl (fun acc p =>
          let idx := acc.labels.lst.indexOf p.1
          { acc with
            values := { acc.values with raw := acc.values.raw.set idx p.2 },
            groups := acc.groups.set idx gidx }) st1
        let xpairs := (List.zip labs vecs).filter (fun p => ¬ st2.labels.sst.contains p.1)
        if xpairs = [] then (none, st2)
        else
          let novelCount := (xpairs.map Prod.fst).dedup.length
          let nlabels0 := st2.labels.lst.length
          let nlabels1 := nlabels0 + novelCount
          let cap := st2.values.raw.length
          let newcap := 2 ^ clog2Comp nlabels1
          let st3 :=
            if cap < newcap then
              { st2 with
                values := { st2.values with
                  raw := st2.values.raw ++
                    List.replicate (newcap - cap) (List.replicate st2.values.dims 0) },
                groups := st2.groups ++ List.replicate (newcap - cap) 0 }
            else st2
          let st4 := { st3 with
            labels := ⟨st3.labels.lst ++ xpairs.map Prod.fst,
                       st3.labels.sst ++ xpairs.map Prod.fst⟩ }
          if xpairs.length ≠ novelCount then (some .assertError, st4)
          else
            (none,
              { st4 with
                values := { st4.values with
                  raw := setFrom st4.values.raw nlabels0 (xpairs.map Prod.snd) },
                groups := setFrom st4.groups nlabels0
                  (xpairs.map (fun _ => gidx)) })

/-- Embedding of `TorchVectorIndex.remove` for an explicit label list.
`size = self.size()` is read once before the loop; each iteration then:
looks the label up in the list (`ValueError` on a stale mirror entry), pops
it (shifting every later label one slot down, and leaving the mirror set
untouched), and copies row and group tag from physical slot `size` — one
past the last occupied slot before the call — into the freed slot (an
`IndexError` when `size` is already the full capacity).  Python iterates
`self.labels.intersection(labs)` in unspecified set order; this model
iterates the distinct labels of `labs` in input order, which coincides with
it for the singleton calls the claims are about. -/
def TorchVectorIndex.remove (st : TorchVectorIndex R) (labs : List String) :
    Option PyErr × TorchVectorIndex R :=
  let size := st.labels.lst.length
  (labs.dedup.filter (fun l => st.labels.sst.contains l)).foldl
    (fun acc lab =>
      match acc with
      | (some e, s) => (some e, s)
      | (none, s) =>
        if s.labels.lst.contains lab then
          let idx := s.labels.lst.indexOf lab
          let s1 := { s with labels := ⟨s.labels.lst.eraseIdx idx, s.labels.sst⟩ }
          if h : size < s1.values.raw.length then
            if h2 : size < s1.groups.length then
              (none,
                { s1 with
                  values := { s1.values with
                    raw := s1.values.raw.set idx (s1.values.raw.get ⟨size, h⟩) },
                  groups := s1.groups.set idx (s1.groups.get ⟨size, h2⟩) })
            else (some .indexError, s1)
          else (some .indexError, s1)
        else (some .valueError, s))
    (none, st)

/-- Embedding of `TorchVectorIndex.search` for a single query vector (the
`squeeze` path).  `k` is clamped to `min k (size())` **before** any group
filtering.  Failure cases returned as `none`: an unseen group key
(`KeyError` in `grpids.idx`), exactly one matching slot (iterating the
0-dimensional tensor produced by `squeeze()` raises), and `topk` called
with `k1` larger than the number of compared slots. -/
def TorchVectorIndex.search (st : TorchVectorIndex R) (q : List R) (k : ℕ)
    (groups : Option (List GroupKey)) : Option (List String × List R) :=
  let num := st.labels.lst.length
  let k1 := min k num
  match groups with
  | none =>
    let sims := (List.range num).map (fun i => dotR q (st.values.raw.getD i []))
    let tops := topk sims k1
    some (tops.map (fun p => st.labels.lst.getD p.1 ""), tops.map Prod.snd)
  | some gs =>
    if gs.any (fun g => (st.grpids.lookup g).isNone) then none
    else
      let ids := gs.map (fun g => (((st.grpids.lookup g).getD 0 : ℕ) : ℤ))
      let sel := (List.range num).filter (fun i => ids.contains (st.groups.getD i 0))
      if sel.length = 1 then none
      else if sel.length < k1 then none
      else
        let labs := sel.map (fun i => st.labels.lst.getD i "")
        let sims := sel.map (fun i => dotR q (st.values.raw.getD i []))
        let tops := topk sims k1
        some (tops.map (fun p => labs.getD p.1 ""), tops.map Prod.snd)

end Ziggy

/-- Embedding of class `HistoryDatabase` from `src/agent.py`.  `txt` is the
ring buffer of `(meta, text)` pairs, `age` the per-physical-slot age array of
length `maxlen` initialised to the sentinel `-1`, and `vecs` the content of
the owned vector index: the source adds embeddings under the label
`self.txt.pos` (the physical ring position about to be written), positions
are first written in increasing order `0, 1, …`, and a rewrite of a position
is an update in place, so the index's slot `s` always holds the latest
embedding written at ring position `s` and `idx.size()` equals the number of
positions written; `vecs` lists exactly those slots in order. -/
structure HistoryDatabase (R : Type) where
  txt : FiniteList (Option String × String)
  age : List ℤ
  vecs : List (List R)
deriving DecidableEq

namespace HistoryDatabase

variable {R : Type} [LinearOrderedCommRing R]

/-- Fresh history database of capacity `maxlen`: empty ring buffer, all ages
at the sentinel `-1`, empty index. -/
def init (maxlen : ℕ) : HistoryDatabase R :=
  { txt := ⟨maxlen, 0, []⟩
    age := List.replicate maxlen (-1)
    vecs := [] }

/-- Embedding of `HistoryDatabase.append`: with `p = self.txt.pos` (read
before the ring append advances it), set `age[p] = 0`, write the embedding
into the index under label `p` (an update in place when `p` was already
written, a new trailing slot otherwise), then append `(meta, txt)` to the
ring buffer.  The caller supplies the embedding `emb` of the text, produced
by the external embedder. -/
def append (db : HistoryDatabase R) (emb : List R) (meta : Option String)
    (text : String) : HistoryDatabase R :=
  let p := db.txt.pos
  { txt := db.txt.append (meta, text)
    age := db.age.set p 0
    vecs := if p < db.vecs.length then db.vecs.set p emb else db.vecs ++ [emb] }

/-- Embedding of `HistoryDatabase.step`: `self.age += (self.age >= 0)`, the
pointwise addition of the boolean mask, which adds one exactly where the age
is non-negative. -/
def step (db : HistoryDatabase R) : HistoryDatabase R :=
  { db with age := db.age.map (fun a => a + if 0 ≤ a then 1 else 0) }

/-- Embedding of `HistoryDatabase.search` with a caller-supplied discount
function `disco` (the source builds `exp(-disc*a)` when `disc` is a float
and uses `disc` itself as the function otherwise).  Steps, in source order:
empty short-circuit; `age = self.age[self.age >= 0]` (the boolean mask keeps
index order, so this lists the written slots' ages in slot order);
`sim0 = self.idx.simil(emb)` (similarity over the index's occupied slots,
i.e. slot order); `sim = disco(age) * sim0`; `topk(min(k, size))`; keep
scores strictly above `cutoff`; finally `self.txt[idxs]`, the ring buffer's
`__getitem__` on the list of winning slot numbers. -/
def search (db : HistoryDatabase R) (qemb : List R) (disco : ℤ → R) (k : ℕ)
    (cutoff : R) : Except PyErr (List (Option String × String)) :=
  let size := db.txt.data.length
  if size = 0 then .ok []
  else
    let ages := db.age.filter (fun a => 0 ≤ a)
    let sim0 := (List.range db.vecs.length).map (fun i => dotR qemb (db.vecs.getD i []))
    let sim := List.zipWith (fun a s => disco a * s) ages sim0
    let tops := topk sim (min k size)
    let idxs := (tops.filter (fun p => cutoff < p.2)).map (fun p => (p.1 : ℤ))
    db.txt.getItems idxs

/-- Operations a caller can perform on a history database; `search` is
read-only and so does not appear as a state transition. -/
inductive HOp (R : Type) where
  | step
  | append (emb : List R) (meta : Option String) (text : String)

/-- Apply one operation. -/
def applyOp (db : HistoryDatabase R) : HOp R → HistoryDatabase R
  | .step => db.step
  | .append emb meta text => db.append emb meta text

/-- Apply a sequence of operations, oldest first. -/
def runOps (db : HistoryDatabase R) (ops : List (HOp R)) : HistoryDatabase R :=
  ops.foldl applyOp db

end HistoryDatabase

/-- Decayed score that `HistoryDatabase.search` computes for written slot `i`
under the default exponential discount: the source multiplies
`disco(age) = exp(-disc * age)` with the raw similarity `sim0` of the query
embedding against the slot's stored embedding. -/
noncomputable def decayedScoreAt (db : HistoryDatabase ℝ) (qemb : List ℝ)
    (lam : ℝ) (i : ℕ) : ℝ :=
  Real.exp (-lam * ((db.age.getD i 0 : ℤ) : ℝ)) * dotR qemb (db.vecs.getD i [])

/-- Fresh two-dimensional index over a capacity-4 allocation whose
uninitialized rows hold recognizable garbage (`torch.empty` leaves arbitrary
data in unwritten rows): used to build concrete removal/addition scenarios. -/
def removeDemoInit : Ziggy.TorchVectorIndex ℤ :=
  { labels := ⟨[], []⟩
    grpids := []
    values := ⟨2, [[5, 5], [5, 5], [5, 5], [9, 9]]⟩
    groups := [7, 7, 7, 7] }

/-- The index reached from `removeDemoInit` by adding labels `a`, `b`, `c`
with rows `[1,0]`, `[2,0]`, `[3,0]` (one `add` call, default group). -/
def removeDemo : Ziggy.TorchVectorIndex ℤ :=
  (removeDemoInit.add ["a", "b", "c"] [[1, 0], [2, 0], [3, 0]] none false).2

/-- Single-label index whose stored row `[0,1]` is orthogonal to the query
`[1,0]`: its similarity score is exactly `0`. -/
def searchDemo : Ziggy.TorchVectorIndex ℤ :=
  { labels := ⟨["y"], ["y"]⟩
    grpids := [(none, 0)]
    values := ⟨2, [[0, 1], [5, 5]]⟩
    groups := [0, 7] }

/-!
Theorems.  Each claim of the specification gets one theorem below (plus a
witness when the theorem carries hypotheses, or a counterexample when the
claim required correction); shared helper lemmas come first.
-/

section Clog2Lemmas

theorem find?_range_min {p : ℕ → Bool} :
    ∀ {n a : ℕ}, (List.range n).find? p = some a → p a = true ∧ ∀ b, b < a → p b = false := by
  intro n
  induction n with
  | zero => intro a h; simp at h
  | succ n ih =>
    intro a h
    rw [List.range_succ, List.find?_append] at h
    cases hfind : (List.range n).find? p with
    | some a1 =>
      rw [hfind] at h
      simp [Option.or] at h
      exact h ▸ ih hfind
    | none =>
      rw [hfind] at h
      simp [Option.or] at h
      rcases h with ⟨hpn, han⟩
      subst han
      refine ⟨hpn, fun b hb => ?_⟩
      have := List.find?_eq_none.mp hfind b (List.mem_range.mpr hb)
      exact Bool.not_eq_true _ ▸ eq_false_of_ne_true this

theorem clog2Comp_le_pow (x : ℕ) : x ≤ 2 ^ clog2Comp x := by
  cases hfind : (List.range (x + 1)).find? (fun k => decide (x ≤ 2 ^ k)) with
  | none =>
    exfalso
    have := List.find?_eq_none.mp hfind x (List.mem_range.mpr (Nat.lt_succ_self x))
    simp at this
    exact absurd (Nat.lt_two_pow x).le (not_le.mpr this)
  | some a =>
    have ha := (find?_range_min hfind).1
    have : clog2Comp x = a := by simp [clog2Comp, hfind]
    rw [this]
    simpa using ha

theorem clog2Comp_eq_clog (x : ℕ) : clog2Comp x = Nat.clog 2 x := by
  refine le_antisymm ?_ ((Nat.le_pow_iff_clog_le one_lt_two).mp (clog2Comp_le_pow x))
  by_contra hlt
  push_neg at hlt
  cases hfind : (List.range (x + 1)).find? (fun k => decide (x ≤ 2 ^ k)) with
  | none =>
    have := List.find?_eq_none.mp hfind x (List.mem_range.mpr (Nat.lt_succ_self x))
    simp at this
    exact absurd (Nat.lt_two_pow x).le (not_le.mpr this)
  | some a =>
    have hmin := (find?_range_min hfind).2
    have hca : clog2Comp x = a := by simp [clog2Comp, hfind]
    have hfalse := hmin (Nat.clog 2 x) (hca ▸ hlt)
    simp at hfalse
    exact absurd (Nat.le_pow_clog one_lt_two x) (not_le.mpr hfalse)

end Clog2Lemmas

section CapacityLemmas

/-- Invariant of the capacity bookkeeping: the allocation is a power of two
and at least the logical size. -/
def TorchVectorIndex.Inv (st : TorchVectorIndex) : Prop :=
  (∃ j, st.max_size = 2 ^ j) ∧ st.size ≤ st.max_size

theorem addNovel_inv {st st' : TorchVectorIndex} {n : ℕ}
    (hinv : st.Inv) (h : st.addNovel n = some st') :
    st'.Inv ∧ st.max_size ≤ st'.max_size := by
  unfold TorchVectorIndex.addNovel at h
  by_cases hn : n = 0
  · rw [if_pos hn] at h
    cases h
    exact ⟨hinv, le_refl _⟩
  · rw [if_neg hn] at h
    unfold TorchVectorIndex.expand next_power_of_2 at h
    have hnz : ¬ (st.size + n = 0) := by omega
    rw [if_neg hnz] at h
    have hle : st.size + n ≤ 2 ^ clog2Comp (st.size + n) := clog2Comp_le_pow _
    rcases lt_or_le st.max_size (2 ^ clog2Comp (st.size + n)) with hc | hc
    · simp only [Option.map_some', Option.map_map, Function.comp, if_pos hc,
        Option.some.injEq] at h
      cases h
      exact ⟨⟨⟨clog2Comp (st.size + n), rfl⟩, hle⟩, hc.le⟩
    · simp only [Option.map_some', Option.map_map, Function.comp, if_neg (not_lt.mpr hc),
        Option.some.injEq] at h
      cases h
      exact ⟨⟨hinv.1, le_trans hle hc⟩, le_refl _⟩

theorem runAdds_inv :
    ∀ (ops : List ℕ) (st st' : TorchVectorIndex), st.Inv →
      TorchVectorIndex.runAdds st ops = some st' → st'.Inv ∧ st.max_size ≤ st'.max_size := by
  intro ops
  induction ops with
  | nil =>
    intro st st' hinv h
    cases h
    exact ⟨hinv, le_refl _⟩
  | cons a l ih =>
    intro st st' hinv h
    rw [TorchVectorIndex.runAdds, List.foldlM_cons] at h
    cases h1 : st.addNovel a with
    | none => rw [h1] at h; simp at h
    | some st1 =>
      rw [h1] at h
      obtain ⟨hinv1, hmono1⟩ := addNovel_inv hinv h1
      obtain ⟨hinv2, hmono2⟩ := ih st1 st' hinv1 h
      exact ⟨hinv2, le_trans hmono1 hmono2⟩

theorem compress_formula {st st' : TorchVectorIndex} {fl : ℕ}
    (h : st.compress fl = some st') :
    st'.max_size = min st.max_size (max fl (2 ^ clog2Comp st.size)) ∧ st'.size = st.size := by
  unfold TorchVectorIndex.compress next_power_of_2 at h
  by_cases hz : st.size = 0
  · rw [if_pos hz] at h
    exact Option.noConfusion h
  · rw [if_neg hz] at h
    rcases lt_or_le (max fl (2 ^ clog2Comp st.size)) st.max_size with hc | hc
    · simp only [Option.map_some', if_pos hc, Option.some.injEq] at h
      cases h
      exact ⟨(min_eq_right hc.le).symm, rfl⟩
    · simp only [Option.map_some', if_neg (not_lt.mpr hc), Option.some.injEq] at h
      cases h
      exact ⟨(min_eq_left hc).symm, rfl⟩

end CapacityLemmas

/-- Claim C10: for every vector index with `size() == 0`, calling `compress`
raises (`next_power_of_2` evaluates `log2(0)`, a math domain error) rather
than shrinking; `compress` on an empty index never succeeds. -/
theorem compress_empty_index_fails (st : TorchVectorIndex) (fl : ℕ) (h : st.size = 0) :
    st.compress fl = none := by
  simp [TorchVectorIndex.compress, next_power_of_2, h]

/-- Witness for `compress_empty_index_fails` at the default configuration
`max_size = 1024`, `min_size = 1024`. -/
theorem compress_empty_index_fails_witness :
    (⟨1024, 0⟩ : TorchVectorIndex).size = 0 ∧
      (⟨1024, 0⟩ : TorchVectorIndex).compress 1024 = none :=
  ⟨rfl, compress_empty_index_fails ⟨1024, 0⟩ 1024 rfl⟩

/-- Counterexample to claim C4 as stated: from a freshly constructed index
with `max_size = 2` (a legal constructor argument: `log2(2) % 1 == 0`), one
`add` of two novel labels reaches capacity 2 with size 2; `compress(1024)`
then leaves the capacity at 2, whereas the claim demands that compress *set*
the capacity to `max(requested_floor, next_power_of_2(size)) = max(1024, 2)
= 1024`.  The source only ever shrinks inside `compress` (guard
`size < self.max_size`). -/
theorem compress_never_grows_cex :
    TorchVectorIndex.runAdds ⟨2, 0⟩ [2] = some ⟨2, 2⟩ ∧
    TorchVectorIndex.compress ⟨2, 2⟩ 1024 = some ⟨2, 2⟩ ∧
    max 1024 (2 ^ clog2Comp 2) = 1024 ∧ (2 : ℕ) ≠ 1024 := by decide

/-- Claim C4, amended: after any sequence of adds starting from a
power-of-two allocation, the capacity is a power of two, is at least the
size, and never decreased (adds only grow it); `compress` sets the capacity
to `min(current capacity, max(requested_floor, next_power_of_2(size)))` —
i.e. it shrinks to `max(requested_floor, next_power_of_2(size))` when that
is below the current capacity and leaves the capacity unchanged otherwise —
without touching the size. -/
theorem tvi_capacity_invariant (k : ℕ) (ops : List ℕ) (st : TorchVectorIndex)
    (h : TorchVectorIndex.runAdds ⟨2 ^ k, 0⟩ ops = some st) :
    (∃ j, st.max_size = 2 ^ j) ∧
    st.size ≤ st.max_size ∧
    2 ^ k ≤ st.max_size ∧
    (∀ n st2, st.addNovel n = some st2 → st.max_size ≤ st2.max_size) ∧
    (∀ fl st', st.compress fl = some st' →
      st'.max_size = min st.max_size (max fl (2 ^ clog2Comp st.size)) ∧ st'.size = st.size) := by
  have hinit : TorchVectorIndex.Inv ⟨2 ^ k, 0⟩ := ⟨⟨k, rfl⟩, Nat.zero_le _⟩
  obtain ⟨hinv, hmono⟩ := runAdds_inv ops _ st hinit h
  refine ⟨hinv.1, hinv.2, hmono, ?_, ?_⟩
  · intro n st2 h2
    exact (addNovel_inv hinv h2).2
  · intro fl st' h'
    exact compress_formula h'

/-- Witness for `tvi_capacity_invariant`: three single-label adds from a
capacity-2 index end at capacity 4, size 3, satisfying the invariant. -/
theorem tvi_capacity_invariant_witness :
    TorchVectorIndex.runAdds ⟨2 ^ 1, 0⟩ [1, 1, 1] = some ⟨4, 3⟩ ∧
    (∃ j, (4 : ℕ) = 2 ^ j) ∧ (3 : ℕ) ≤ 4 ∧ (2 : ℕ) ^ 1 ≤ 4 := by
  have h := tvi_capacity_invariant 1 [1, 1, 1] ⟨4, 3⟩ (by decide)
  exact ⟨by decide, h.1, h.2.1, h.2.2.1⟩

section HistoryAgeLemmas

variable {R : Type}

theorem step_age_getElem (db : HistoryDatabase R) (i : ℕ) :
    db.step.age[i]? = db.age[i]?.map (fun a => a + if 0 ≤ a then 1 else 0) := by
  simp [HistoryDatabase.step]

/-- Every age cell is either the sentinel `-1` or non-negative. -/
abbrev AgesOk (db : HistoryDatabase R) : Prop :=
  ∀ (i : ℕ) (a : ℤ), db.age[i]? = some a → a = -1 ∨ 0 ≤ a

theorem agesOk_init (m : ℕ) : AgesOk (HistoryDatabase.init m : HistoryDatabase R) := by
  intro i a h
  simp [HistoryDatabase.init, List.getElem?_replicate] at h
  exact Or.inl h.2.symm

theorem agesOk_applyOp {db : HistoryDatabase R} (h : AgesOk db)
    (op : HistoryDatabase.HOp R) : AgesOk (db.applyOp op) := by
  cases op with
  | step =>
    intro i a ha
    rw [HistoryDatabase.applyOp, step_age_getElem] at ha
    cases hx : db.age[i]? with
    | none => rw [hx] at ha; exact Option.noConfusion ha
    | some b =>
      rw [hx] at ha
      simp only [Option.map_some', Option.some.injEq] at ha
      rcases h i b hx with hb | hb
      · subst hb
        left
        omega
      · right
        rw [if_pos hb] at ha
        omega
  | append emb mt tx =>
    intro i a ha
    simp only [HistoryDatabase.applyOp, HistoryDatabase.append] at ha
    rw [List.getElem?_set'] at ha
    by_cases hp : db.txt.pos = i
    · rw [if_pos hp] at ha
      cases hx : db.age[i]? with
      | none => rw [hx] at ha; exact Option.noConfusion ha
      | some b =>
        rw [hx] at ha
        simp at ha
        omega
    · rw [if_neg hp] at ha
      exact h i a ha

theorem agesOk_runOps {db : HistoryDatabase R} (h : AgesOk db)
    (ops : List (HistoryDatabase.HOp R)) : AgesOk (HistoryDatabase.runOps db ops) := by
  induction ops generalizing db with
  | nil => exact h
  | cons op l ih => exact ih (agesOk_applyOp h op)

theorem age_nonneg_applyOp {db : HistoryDatabase R} (i : ℕ)
    (op : HistoryDatabase.HOp R) (h : 0 ≤ db.age.getD i (-1)) :
    0 ≤ (db.applyOp op).age.getD i (-1) := by
  rw [List.getD_eq_getElem?_getD] at h ⊢
  cases op with
  | step =>
    rw [HistoryDatabase.applyOp, step_age_getElem]
    cases hx : db.age[i]? with
    | none => rw [hx] at h; norm_num at h
    | some b =>
      rw [hx] at h
      simp only [Option.getD_some] at h
      simp only [Option.map_some', Option.getD_some, if_pos h]
      omega
  | append emb mt tx =>
    simp only [HistoryDatabase.applyOp, HistoryDatabase.append]
    rw [List.getElem?_set']
    by_cases hp : db.txt.pos = i
    · rw [if_pos hp]
      cases hx : db.age[i]? with
      | none => rw [hx] at h; norm_num at h
      | some b => simp
    · rw [if_neg hp]
      exact h

theorem age_nonneg_runOps {db : HistoryDatabase R} (i : ℕ)
    (ops : List (HistoryDatabase.HOp R)) (h : 0 ≤ db.age.getD i (-1)) :
    0 ≤ (HistoryDatabase.runOps db ops).age.getD i (-1) := by
  induction ops generalizing db with
  | nil => exact h
  | cons op l ih => exact ih (age_nonneg_applyOp i op h)

/-- Well-formedness of a history database of capacity `m`: the age array has
length `m`, the ring buffer capacity is `m`, and the cursor is in range. -/
abbrev HWf (m : ℕ) (db : HistoryDatabase R) : Prop :=
  db.age.length = m ∧ db.txt.max = m ∧ (0 < m → db.txt.pos < m)

theorem hwf_init (m : ℕ) : HWf m (HistoryDatabase.init m : HistoryDatabase R) :=
  ⟨by simp [HistoryDatabase.init], rfl, fun h => h⟩

theorem hwf_applyOp {m : ℕ} {db : HistoryDatabase R} (hwf : HWf m db)
    (op : HistoryDatabase.HOp R) : HWf m (db.applyOp op) := by
  obtain ⟨h1, h2, h3⟩ := hwf
  cases op with
  | step => exact ⟨by simpa [HistoryDatabase.applyOp, HistoryDatabase.step] using h1, h2, h3⟩
  | append emb mt tx =>
    refine ⟨by simpa [HistoryDatabase.applyOp, HistoryDatabase.append] using h1, ?_, ?_⟩
    · simp only [HistoryDatabase.applyOp, HistoryDatabase.append, FiniteList.append]
      split <;> exact h2
    · intro hm
      simp only [HistoryDatabase.applyOp, HistoryDatabase.append, FiniteList.append]
      split <;> simpa [h2] using Nat.mod_lt _ hm

theorem hwf_runOps {m : ℕ} {db : HistoryDatabase R} (hwf : HWf m db)
    (ops : List (HistoryDatabase.HOp R)) : HWf m (HistoryDatabase.runOps db ops) := by
  induction ops generalizing db with
  | nil => exact hwf
  | cons op l ih => exact ih (hwf_applyOp hwf op)

end HistoryAgeLemmas

/-- Claim C8: in every history database reached from a fresh one by a
sequence of appends and steps (searches do not mutate state), `step()`
increments every age that is not the sentinel `-1` by exactly one and leaves
sentinel entries unchanged; `append` resets the written slot's age to `0`;
and a slot whose age is non-negative (ever written) keeps a non-negative age
under every further operation sequence — it never returns to the unwritten
sentinel state. -/
theorem historydb_age_lifecycle {R : Type}
    (m : ℕ) (ops : List (HistoryDatabase.HOp R)) (db : HistoryDatabase R)
    (hdb : db = HistoryDatabase.runOps (HistoryDatabase.init m) ops) :
    (∀ (i : ℕ) (a : ℤ), db.age[i]? = some a →
      (a = -1 ∧ db.step.age[i]? = some (-1)) ∨ (0 ≤ a ∧ db.step.age[i]? = some (a + 1))) ∧
    (∀ emb mt tx, 0 < m →
      (db.append emb mt tx).age[db.txt.pos]? = some 0) ∧
    (∀ i ops2, 0 ≤ db.age.getD i (-1) →
      0 ≤ (HistoryDatabase.runOps db ops2).age.getD i (-1)) := by
  subst hdb
  have hages := agesOk_runOps (agesOk_init m) ops
  have hwf := hwf_runOps (hwf_init m) ops
  refine ⟨?_, ?_, ?_⟩
  · intro i a ha
    rcases hages i a ha with hcase | hcase
    · left
      refine ⟨hcase, ?_⟩
      rw [step_age_getElem, ha, hcase]
      norm_num
    · right
      refine ⟨hcase, ?_⟩
      rw [step_age_getElem, ha]
      simp [if_pos hcase]
  · intro emb mt tx hm
    simp only [HistoryDatabase.append]
    exact List.getElem?_set_eq_of_lt 0 (by rw [hwf.1]; exact hwf.2.2 hm)
  · intro i ops2 h
    exact age_nonneg_runOps i ops2 h

/-- Witness for `historydb_age_lifecycle`: capacity 2, one append.  The
written slot steps from age 0 to age 1, the untouched slot stays at the
sentinel, a second append writes age 0 at the cursor, and the written slot's
age stays non-negative across a further step. -/
theorem historydb_age_lifecycle_witness :
    ((HistoryDatabase.runOps (HistoryDatabase.init 2)
        [HistoryDatabase.HOp.append ([1] : List ℤ) none "x"]).step.age[0]? = some 1) ∧
    ((HistoryDatabase.runOps (HistoryDatabase.init 2)
        [HistoryDatabase.HOp.append ([1] : List ℤ) none "x"]).step.age[1]? = some (-1)) ∧
    (((HistoryDatabase.runOps (HistoryDatabase.init 2)
        [HistoryDatabase.HOp.append ([1] : List ℤ) none "x"]).append [1] none "y").age[
          (HistoryDatabase.runOps (HistoryDatabase.init 2)
            [HistoryDatabase.HOp.append ([1] : List ℤ) none "x"]).txt.pos]? = some 0) ∧
    (0 ≤ (HistoryDatabase.runOps (HistoryDatabase.runOps (HistoryDatabase.init 2)
        [HistoryDatabase.HOp.append ([1] : List ℤ) none "x"])
        [HistoryDatabase.HOp.step]).age.getD 0 (-1)) := by
  have h := historydb_age_lifecycle 2
    [HistoryDatabase.HOp.append ([1] : List ℤ) none "x"] _ rfl
  refine ⟨?_, ?_, h.2.1 [1] none "y" (by decide), h.2.2 0 [HistoryDatabase.HOp.step] (by decide)⟩
  · have := h.1 0 0 (by decide)
    rcases this with ⟨hbad, _⟩ | ⟨_, hgood⟩
    · exact absurd hbad (by decide)
    · simpa using hgood
  · have := h.1 1 (-1) (by decide)
    rcases this with ⟨_, hgood⟩ | ⟨hbad, _⟩
    · exact hgood
    · exact absurd hbad (by decide)

section DecayLemmas

variable {R : Type}

theorem append_age_getD (db : HistoryDatabase R) (emb : List R) (mt : Option String)
    (tx : String) (hp : db.txt.pos < db.age.length) :
    (db.append emb mt tx).age.getD db.txt.pos 0 = 0 := by
  simp [HistoryDatabase.append, List.getD_eq_getElem?_getD,
    List.getElem?_set_eq_of_lt _ hp]

theorem append_vecs_getD (db : HistoryDatabase R) (emb : List R) (mt : Option String)
    (tx : String) (hv : db.txt.pos ≤ db.vecs.length) :
    (db.append emb mt tx).vecs.getD db.txt.pos [] = emb := by
  simp only [HistoryDatabase.append]
  rcases lt_or_eq_of_le hv with h | h
  · rw [if_pos h]
    simp [List.getD_eq_getElem?_getD, List.getElem?_set_eq_of_lt _ h]
  · rw [if_neg (by omega)]
    rw [List.getD_eq_getElem?_getD, h, List.getElem?_concat_length]
    rfl

theorem step_age_length (db : HistoryDatabase R) : db.step.age.length = db.age.length := by
  simp [HistoryDatabase.step]

theorem step_age_getD (db : HistoryDatabase R) (p : ℕ) (hp : p < db.age.length)
    (h : 0 ≤ db.age.getD p 0) :
    db.step.age.getD p 0 = db.age.getD p 0 + 1 := by
  have hx : db.age[p]? = some db.age[p] := List.getElem?_eq_getElem hp
  rw [List.getD_eq_getElem?_getD, hx, Option.getD_some] at h
  rw [List.getD_eq_getElem?_getD, List.getD_eq_getElem?_getD, step_age_getElem, hx,
    Option.map_some', Option.getD_some, Option.getD_some, if_pos h]

end DecayLemmas

/-- Claim C9: for the default exponential decay `exp(-λ·age)` with `λ > 0`,
the decayed score of a stored entry with positive raw similarity is strictly
decreasing in its age: appending a text and then stepping five times yields
a strictly lower decayed score for that entry than the same query evaluated
immediately after the append.  The hypotheses ask that the write cursor be
inside the age array and at most one past the written index slots (true in
every reachable state) and that the raw similarity of the query embedding
with the stored embedding be positive (true for a query identical to the
stored text under any non-degenerate embedder, e.g. `dot e e = ‖e‖² > 0`). -/
theorem historydb_decay_monotone (db0 : HistoryDatabase ℝ) (emb qemb : List ℝ)
    (mt : Option String) (tx : String) (lam : ℝ)
    (hlam : 0 < lam)
    (hp : db0.txt.pos < db0.age.length)
    (hv : db0.txt.pos ≤ db0.vecs.length)
    (hs : 0 < dotR qemb emb) :
    decayedScoreAt (db0.append emb mt tx).step.step.step.step.step qemb lam db0.txt.pos <
      decayedScoreAt (db0.append emb mt tx) qemb lam db0.txt.pos := by
  have hlen1 : (db0.append emb mt tx).age.length = db0.age.length := by
    simp [HistoryDatabase.append]
  have hp1 : db0.txt.pos < (db0.append emb mt tx).age.length := hlen1 ▸ hp
  have ha1 : (db0.append emb mt tx).age.getD db0.txt.pos 0 = 0 :=
    append_age_getD db0 emb mt tx hp
  have hv1 : (db0.append emb mt tx).vecs.getD db0.txt.pos [] = emb :=
    append_vecs_getD db0 emb mt tx hv
  have hgrow : ∀ db : HistoryDatabase ℝ, db0.txt.pos < db.age.length →
      0 ≤ db.age.getD db0.txt.pos 0 →
      db.step.age.getD db0.txt.pos 0 = db.age.getD db0.txt.pos 0 + 1 ∧
        db0.txt.pos < db.step.age.length ∧ 0 ≤ db.step.age.getD db0.txt.pos 0 := by
    intro db h1 h2
    refine ⟨step_age_getD db db0.txt.pos h1 h2, ?_, ?_⟩
    · rw [step_age_length]; exact h1
    · rw [step_age_getD db db0.txt.pos h1 h2]; omega
  obtain ⟨e1, p1, n1⟩ := hgrow (db0.append emb mt tx) hp1 (by rw [ha1])
  obtain ⟨e2, p2, n2⟩ := hgrow _ p1 n1
  obtain ⟨e3, p3, n3⟩ := hgrow _ p2 n2
  obtain ⟨e4, p4, n4⟩ := hgrow _ p3 n3
  obtain ⟨e5, _, _⟩ := hgrow _ p4 n4
  have ha5 : (db0.append emb mt tx).step.step.step.step.step.age.getD db0.txt.pos 0 = 5 := by
    rw [e5, e4, e3, e2, e1, ha1]
    norm_num
  have hvecs5 : (db0.append emb mt tx).step.step.step.step.step.vecs =
      (db0.append emb mt tx).vecs := rfl
  unfold decayedScoreAt
  rw [ha5, ha1, hvecs5, hv1]
  push_cast
  have hexp : Real.exp (-lam * 5) < 1 := by
    rw [← Real.exp_zero]
    exact Real.exp_lt_exp.mpr (by nlinarith)
  simpa [mul_zero, neg_zero, Real.exp_zero, one_mul] using mul_lt_of_lt_one_left hs hexp

/-- Witness for `historydb_decay_monotone`: a fresh capacity-4 store, an
embedding `[1]` for the text (self-similarity `1 > 0`) and `λ = 1`. -/
theorem historydb_decay_monotone_witness :
    (0 : ℝ) < 1 ∧ (0 : ℝ) < dotR [(1 : ℝ)] [(1 : ℝ)] ∧
    decayedScoreAt
        ((HistoryDatabase.init 4 : HistoryDatabase ℝ).append [1] none
          "hello").step.step.step.step.step [1] 1
        (HistoryDatabase.init 4 : HistoryDatabase ℝ).txt.pos <
      decayedScoreAt
        ((HistoryDatabase.init 4 : HistoryDatabase ℝ).append [1] none "hello") [1] 1
        (HistoryDatabase.init 4 : HistoryDatabase ℝ).txt.pos :=
  ⟨by norm_num, by norm_num [dotR],
    historydb_decay_monotone (HistoryDatabase.init 4) [1] [1] none "hello" 1
      (by norm_num) (by decide) (by decide) (by norm_num [dotR])⟩

/-- Claim C1 fails on the code: `HistoryDatabase.search` computes the winning
slot numbers against the vector index (labels are *physical* ring positions)
but then reads the texts through `self.txt[idxs]`, the ring buffer's
*backward logical* addressing (`data[(pos - 1 - idx) % size]`).  Below, texts
"A" (embedding `[1,0]`) and "B" (embedding `[0,1]`) are appended to a fresh
store, ages are both 0, the discount function is the constant 1, and the
query embedding is `[1,0]`: the similarity vector is `[1, 0]`, so the only
slot above the cutoff `0` is ring position 0, where the pair `(none, "A")`
is stored — yet search returns `(none, "B")`, the pair at logical index 0 =
physical position 1. -/
theorem historydb_search_misaddresses_ring :
    (((HistoryDatabase.init 4 : HistoryDatabase ℤ).append [1, 0] none "A").append
        [0, 1] none "B").search [1, 0] (fun _ => 1) 5 0 = .ok [(none, "B")] ∧
    (((HistoryDatabase.init 4 : HistoryDatabase ℤ).append [1, 0] none "A").append
        [0, 1] none "B").txt.data = [(none, "A"), (none, "B")] ∧
    topk ([1, 0] : List ℤ) 2 = [(0, 1), (1, 0)] := by decide

/-- Claim C2 fails on the code: in the full case, `values()` returns
`data[pos-1::-1] + data[:pos:-1]`, whose second slice stops one short and
omits the element at physical index `pos` — the oldest stored item.  After
appending A,B,C,D,E to a capacity-4 buffer the spec expects
`values() = [E,D,C,B]`, but the code produces `[E,D,C]` (3 items, not the
logical size 4); reading all four logical indices through `__getitem__`
shows the stored content really is `[E,D,C,B]`. -/
theorem finitelist_values_drops_oldest :
    (FiniteList.appendAll ⟨4, 0, []⟩ ["A", "B", "C", "D", "E"]).values = ["E", "D", "C"] ∧
    (FiniteList.appendAll ⟨4, 0, []⟩ ["A", "B", "C", "D", "E"]).data.length = 4 ∧
    (FiniteList.appendAll ⟨4, 0, []⟩ ["A", "B", "C", "D", "E"]).getItems [0, 1, 2, 3] =
      .ok ["E", "D", "C", "B"] := by decide

/-- Claim C3 fails on the code: `remove` pops the label from the label
*list* (shifting every later label one slot down without moving any vector)
and copies the row from physical slot `size` — one *past* the last occupied
slot, i.e. uninitialized storage — into the freed slot.  Removing "a" from
the index `{a ↦ [1,0], b ↦ [2,0], c ↦ [3,0]}` (built by one `add` from a
fresh capacity-4 allocation whose unwritten row 3 holds garbage `[9,9]`)
leaves `contains("a")` false and shrinks the size by one as claimed, but
afterwards `get("b")` returns the garbage row `[9,9]` and `get("c")` returns
b's old row `[2,0]`: two distinct remaining labels both changed, while the
claim allows at most the single relocated label to change. -/
theorem ziggy_remove_corrupts_remaining :
    (removeDemoInit.add ["a", "b", "c"] [[1, 0], [2, 0], [3, 0]] none false).1 = none ∧
    removeDemo.labels.lst = ["a", "b", "c"] ∧
    removeDemo.get "b" = .ok [2, 0] ∧
    removeDemo.get "c" = .ok [3, 0] ∧
    (removeDemo.remove ["a"]).1 = none ∧
    (removeDemo.remove ["a"]).2.containsLabel "a" = false ∧
    (removeDemo.remove ["a"]).2.size = 2 ∧
    (removeDemo.remove ["a"]).2.get "b" = .ok [9, 9] ∧
    (removeDemo.remove ["a"]).2.get "c" = .ok [2, 0] := by decide

/-- Claim C7 fails on the code: `slice_to_indices` computes the adjusted and
clamped `end` from `stop` but then passes the raw `stop` to `range`, so the
clamp never takes effect.  On a 4-item buffer, `slice(0, 10)` produces
indices `0..9` and `__getitem__` raises `IndexError` at index 4 instead of
clamping to 4 items; `slice(0, -1)` (which general sequence slicing maps to
the first three logical items) produces `range(0, -1)`, the empty list.
In-range slices such as `slice(0, 2)` do work. -/
theorem finitelist_slice_unclamped_raises :
    (FiniteList.appendAll ⟨10, 0, []⟩ ["A", "B", "C", "D"]).getSlice ⟨some 0, some 10, none⟩ =
      .error .indexError ∧
    (FiniteList.appendAll ⟨10, 0, []⟩ ["A", "B", "C", "D"]).getSlice ⟨some 0, some (-1), none⟩ =
      .ok [] ∧
    (FiniteList.appendAll ⟨10, 0, []⟩ ["A", "B", "C", "D"]).getSlice ⟨some 0, some 2, none⟩ =
      .ok ["D", "C"] := by decide

/-- Claim C5: an `add` call with `strict=true` in which at least one supplied
label already exists fails with the duplicate-label error and leaves the
index state exactly as it was (the raise precedes every mutation point:
group registration, row writes, label extension, reallocation).  The
`hmirror` hypothesis states that the `OrderedSet` mirror set contains every
label of the list, which holds in every state the class constructs. -/
theorem ziggy_add_strict_all_or_nothing {R : Type} [LinearOrderedCommRing R]
    (st : Ziggy.TorchVectorIndex R) (labs : List String) (vecs : List (List R))
    (g : Ziggy.GroupKey)
    (hlen : labs.length = vecs.length)
    (hdims : ∀ v ∈ vecs, v.length = st.values.dims)
    (hmirror : ∀ l ∈ st.labels.lst, l ∈ st.labels.sst)
    (hdup : ∃ l ∈ labs, l ∈ st.labels.lst) :
    st.add labs vecs g true = (some PyErr.duplicateLabel, st) := by
  have hne : st.labels.sst.filter (fun l => labs.contains l) ≠ [] := by
    obtain ⟨l, hl, hlst⟩ := hdup
    have hmem : l ∈ st.labels.sst.filter (fun l => labs.contains l) :=
      List.mem_filter.mpr ⟨hmirror l hlst, by simpa using hl⟩
    exact List.ne_nil_of_mem hmem
  have h2 : ¬ (vecs.any (fun v => v.length ≠ st.values.dims) = true) := by
    simp only [List.any_eq_true, decide_eq_true_eq, not_exists, not_and]
    intro v hv
    exact not_ne_iff.mpr (hdims v hv)
  simp only [Ziggy.TorchVectorIndex.add]
  rw [if_neg (not_ne_iff.mpr hlen), if_neg h2, if_pos ⟨trivial, hne⟩]

/-- Witness for `ziggy_add_strict_all_or_nothing`: strict-adding `["c","d"]`
to the index holding `a`, `b`, `c` fails and leaves the state untouched. -/
theorem ziggy_add_strict_all_or_nothing_witness :
    removeDemo.add ["c", "d"] [[1, 1], [2, 2]] none true =
      (some PyErr.duplicateLabel, removeDemo) :=
  ziggy_add_strict_all_or_nothing removeDemo ["c", "d"] [[1, 1], [2, 2]] none
    (by decide) (by decide) (by decide) (by decide)

section TopkLemmas

variable {R : Type} [LinearOrderedCommRing R]

theorem topkRel_antisymm (a b : ℕ × R) (h1 : topkRel a b) (h2 : topkRel b a) : a = b := by
  rcases h1 with h1 | ⟨h1e, h1i⟩ <;> rcases h2 with h2 | ⟨h2e, h2i⟩
  · exact absurd h1 (lt_asymm h2)
  · rw [h2e] at h1
    exact absurd h1 (lt_irrefl _)
  · rw [h1e] at h2
    exact absurd h2 (lt_irrefl _)
  · exact Prod.ext (le_antisymm h1i h2i) h1e

theorem topk_length (sims : List R) (k : ℕ) : (topk sims k).length = min k sims.length := by
  simp [topk]

theorem topk_pairwise (sims : List R) (k : ℕ) : List.Pairwise topkRel (topk sims k) :=
  List.Pairwise.sublist (List.take_sublist _ _) (List.sorted_insertionSort topkRel _)

theorem topk_snd_descending (sims : List R) (k : ℕ) :
    List.Pairwise (fun a b : R => b ≤ a) ((topk sims k).map Prod.snd) := by
  rw [List.pairwise_map]
  refine (topk_pairwise sims k).imp ?_
  intro a b hab
  rcases hab with h | ⟨h, _⟩
  · exact h.le
  · exact le_of_eq h.symm

theorem mem_base_of {sims : List R} {i : ℕ} {s : R} (h : sims[i]? = some s) :
    (i, s) ∈ (List.range sims.length).map (fun j => (j, sims.getD j 0)) := by
  have hi : i < sims.length := by
    by_contra hge
    rw [List.getElem?_eq_none (by omega)] at h
    exact Option.noConfusion h
  refine List.mem_map.mpr ⟨i, List.mem_range.mpr hi, ?_⟩
  rw [List.getElem?_eq_getElem hi, Option.some.injEq] at h
  rw [List.getD_eq_getElem sims 0 hi, h]

theorem take_mem_of_rel {α : Type} {r : α → α → Prop} {l : List α} {k : ℕ} {x y : α}
    (hsorted : List.Pairwise r l)
    (hanti : ∀ a b, r a b → r b a → a = b)
    (hx : x ∈ l) (hr : r x y) (hxy : x ≠ y)
    (hy : y ∈ l.take k) : x ∈ l.take k := by
  by_cases hmem : x ∈ l.take k
  · exact hmem
  exfalso
  have hsplit := List.take_append_drop k l
  have hcross : ∀ a ∈ l.take k, ∀ b ∈ l.drop k, r a b := by
    rw [← hsplit] at hsorted
    exact (List.pairwise_append.mp hsorted).2.2
  have hxdrop : x ∈ l.drop k := by
    rcases List.mem_append.mp (hsplit.symm ▸ hx) with hcase | hcase
    · exact absurd hcase hmem
    · exact hcase
  exact hxy (hanti x y hr (hcross y hy x hxdrop))

theorem topk_tie (sims : List R) (k : ℕ) {i j : ℕ} {s : R}
    (hij : i < j) (hi : sims[i]? = some s) (hj : sims[j]? = some s)
    (hjmem : (j, s) ∈ topk sims k) : (i, s) ∈ topk sims k := by
  simp only [topk] at hjmem ⊢
  refine take_mem_of_rel (List.sorted_insertionSort topkRel _) topkRel_antisymm
    ?_ ?_ ?_ hjmem
  · exact (List.perm_insertionSort topkRel _).mem_iff.mpr (mem_base_of hi)
  · exact Or.inr ⟨rfl, hij.le⟩
  · intro hx
    rw [Prod.mk.injEq] at hx
    omega

end TopkLemmas

/-- Counterexample to claim C6 as stated: `Ziggy.TorchVectorIndex.search`
has no cutoff parameter and performs no cutoff filtering, so a returned
score can be `≤` any cutoff; with the spec's default cutoff `0.0`, searching
the index `{y ↦ [0,1]}` with the query `[1,0]` returns the score `0`. -/
theorem ziggy_search_returns_score_at_cutoff :
    searchDemo.search [1, 0] 1 none = some (["y"], [0]) ∧ ((0 : ℤ) ≤ 0) := by decide

/-- Claim C6, amended: whenever `search` returns (with a groups filter it
can instead fail — on an unseen group key, on exactly one matching slot, or
when `min k size` exceeds the match count), it returns at most
`min(k, size())` results, scores in descending order, and equal-score ties
broken in favour of the earlier entry of the compared slot sequence `sel` —
which is increasing, so the lower slot wins; no cutoff filtering is applied
(search has no cutoff parameter), so returned scores may be ≤ any cutoff. -/
theorem ziggy_search_guarantees {R : Type} [LinearOrderedCommRing R]
    (st : Ziggy.TorchVectorIndex R) (q : List R) (k : ℕ)
    (groups : Option (List Ziggy.GroupKey)) (labs : List String) (vals : List R)
    (h : st.search q k groups = some (labs, vals)) :
    labs.length ≤ min k st.size ∧
    vals.length ≤ min k st.size ∧
    List.Pairwise (fun a b : R => b ≤ a) vals ∧
    ∃ sel : List ℕ,
      List.Pairwise (· < ·) sel ∧
      (∀ i ∈ sel, i < st.size) ∧
      (groups = none → sel = List.range st.size) ∧
      vals = (topk (sel.map (fun i => dotR q (st.values.raw.getD i [])))
        (min k st.size)).map Prod.snd ∧
      (∀ (a b : ℕ) (s : R), a < b →
        (sel.map (fun i => dotR q (st.values.raw.getD i [])))[a]? = some s →
        (sel.map (fun i => dotR q (st.values.raw.getD i [])))[b]? = some s →
        (b, s) ∈ topk (sel.map (fun i => dotR q (st.values.raw.getD i []))) (min k st.size) →
        (a, s) ∈ topk (sel.map (fun i => dotR q (st.values.raw.getD i []))) (min k st.size)) := by
  cases groups with
  | none =>
    simp only [Ziggy.TorchVectorIndex.search, Option.some.injEq, Prod.mk.injEq] at h
    obtain ⟨hlabs, hvals⟩ := h
    subst hlabs
    subst hvals
    have hlen : ∀ w : List R,
        ((topk ((List.range st.labels.lst.length).map
          (fun i => dotR q (st.values.raw.getD i []))) (min k st.labels.lst.length)).map
            (fun p : ℕ × R => w.getD p.1 0)).length ≤ min k st.size := by
      intro w
      rw [List.length_map, topk_length, List.length_map, List.length_range]
      simp only [Ziggy.TorchVectorIndex.size]
      omega
    refine ⟨?_, ?_, topk_snd_descending _ _, List.range st.size, ?_, ?_, fun _ => ?_, ?_, ?_⟩
    · rw [List.length_map, topk_length, List.length_map, List.length_range]
      simp only [Ziggy.TorchVectorIndex.size]
      omega
    · rw [List.length_map, topk_length, List.length_map, List.length_range]
      simp only [Ziggy.TorchVectorIndex.size]
      omega
    · exact List.pairwise_lt_range st.size
    · intro i hi
      exact List.mem_range.mp hi
    · rfl
    · rfl
    · intro a b s hab ha hb hbmem
      exact topk_tie _ _ hab ha hb hbmem
  | some gs =>
    simp only [Ziggy.TorchVectorIndex.search] at h
    split at h
    · exact absurd h (by simp)
    split at h
    · exact absurd h (by simp)
    split at h
    · exact absurd h (by simp)
    rename_i hnotone hnotlt
    rw [not_lt] at hnotlt
    simp only [Option.some.injEq, Prod.mk.injEq] at h
    obtain ⟨hlabs, hvals⟩ := h
    subst hlabs
    subst hvals
    refine ⟨?_, ?_, topk_snd_descending _ _,
      (List.range st.labels.lst.length).filter
        (fun i => ((gs.map (fun g => (((st.grpids.lookup g).getD 0 : ℕ) : ℤ))).contains
          (st.groups.getD i 0))), ?_, ?_, ?_, ?_, ?_⟩
    · rw [List.length_map, topk_length, List.length_map]
      simp only [Ziggy.TorchVectorIndex.size] at hnotlt ⊢
      omega
    · rw [List.length_map, topk_length, List.length_map]
      simp only [Ziggy.TorchVectorIndex.size] at hnotlt ⊢
      omega
    · exact List.Pairwise.filter _ (List.pairwise_lt_range _)
    · intro i hi
      exact List.mem_range.mp (List.mem_of_mem_filter hi)
    · intro habs
      exact absurd habs (by simp)
    · rfl
    · intro a b s hab ha hb hbmem
      exact topk_tie _ _ hab ha hb hbmem

/-- Witness for `ziggy_search_guarantees`: the single-label index returns
one result for `k = 1`, within the `min(k, size)` bound. -/
theorem ziggy_search_guarantees_witness :
    searchDemo.search [1, 0] 1 none = some (["y"], [0]) ∧
    (["y"] : List String).length ≤ min 1 searchDemo.size :=
  ⟨by decide,
    (ziggy_search_guarantees searchDemo [1, 0] 1 none ["y"] [0] (by decide)).1⟩
